import Mathlib

/-!
# Verification of the SPV proved-transaction module (`src/proved.rs`)

The module under study builds a Merkle authentication path for one
transaction of a Bitcoin block (`ProvedTransaction::compute_proof`, with its
inner level-reduction `binhash`) and folds such a path back into a candidate
Merkle root (`ProvedTransaction::merkle_root`).

Embedding choices:

* A transaction identifier hash (`sha256d::Hash`) is an opaque value of an
  arbitrary type `α`; the double-SHA256 combining step "feed `a` then `b`
  into a fresh engine" is an abstract binary operation `H : α → α → α`.
  Nothing in the source inspects hash bytes, so every statement is proved
  uniformly in `H`.
* A block is represented by what the source reads from it: the ordered list
  of its transaction ids (`block.txdata.iter().map(|t| t.txid())`) and its
  header hash.
* The Rust `while let` loop of `compute_proof` is rendered with explicit
  fuel (`computeProofFuel`); `ids.length` fuel is shown sufficient
  (`computeProofFuel_stable`), which is the termination argument for the
  source loop.
* The Rust vector index panic of `ProvedTransaction::new`
  (`block.txdata[txnr]`) is rendered as `Option.none`.
-/

namespace SpvProof

variable {α β : Type}

/-- The loop body of `binhash` over `hashes.chunks(2).enumerate()`, started
at chunk index `i`: the `[x]` arm is a final odd chunk (hashed with itself),
the `x :: y :: rest` arm a full pair.  First component is the reduced level,
second the operation recorded for the tracked index, exactly as in the Rust
source (`track == i*2` records the right or duplicated hash of the pair with flag
`false`, `track == i*2 + 1` the left hash of the pair with flag `true`). -/
def binhashGo (H : α → α → α) (track : Nat) : List α → Nat → List α × Option (Nat × Bool × α)
  | [], _ => ([], none)
  | [x], i =>
    ([H x x],
      if track = i * 2 then some (i, false, x)
      else if track = i * 2 + 1 then some (i, true, x)
      else none)
  | x :: y :: rest, i =>
    (H x y :: (binhashGo H track rest (i + 1)).1,
      if track = i * 2 then some (i, false, y)
      else if track = i * 2 + 1 then some (i, true, x)
      else (binhashGo H track rest (i + 1)).2)

/-- `binhash` from `src/proved.rs`: one step of the reduction to the merkle
root.  For a level of two or more hashes it reduces the level and reports the
operation applied to the tracked id; for one hash or none it returns an empty
level and no operation (the `hashes.len() > 1` guard in the source). -/
def binhash (H : α → α → α) (hashes : List α) (track : Nat) :
    List α × Option (Nat × Bool × α) :=
  if 1 < hashes.length then binhashGo H track hashes 0 else ([], none)

/-- The `while let` loop of `compute_proof`, with explicit fuel: as long as
`binhash` reports a tracked operation, record it and continue on the reduced
level with the tracked index moved to its parent position. -/
def computeProofFuel (H : α → α → α) : Nat → List α → Nat → List (Bool × α)
  | 0, _, _ => []
  | fuel + 1, ids, track =>
    match binhash H ids track with
    | (next, some (t, left, h)) => (left, h) :: computeProofFuel H fuel next t
    | (_, none) => []

/-- `ProvedTransaction::compute_proof` from `src/proved.rs`, on the transaction-id
list of the block.  Fuel `ids.length` is sufficient for the source loop to
have exited (`computeProofFuel_stable`). -/
def compute_proof (H : α → α → α) (track : Nat) (ids : List α) : List (Bool × α) :=
  computeProofFuel H ids.length ids track

/-- `ProvedTransaction::merkle_root` from `src/proved.rs`: fold the path over
the id of the transaction, hashing the recorded sibling before the accumulator
when its flag is `true` and after it otherwise. -/
def merkle_root (H : α → α → α) (txid : α) (path : List (Bool × α)) : α :=
  path.foldl (fun a p => if p.1 then H p.2 a else H a p.2) txid

/-- Modelled from the spec: one level of the standard Bitcoin pairing —
partition the level into consecutive pairs, the parent of a pair is the hash
of left then right, and an odd final element is paired with itself. -/
def specLevel (H : α → α → α) : List α → List α
  | [] => []
  | [x] => [H x x]
  | x :: y :: rest => H x y :: specLevel H rest

/-- Modelled from the spec: the standard level-by-level Bitcoin merkle root.
A single hash is the root; two or more hashes are reduced by `specLevel`.
Fuel-indexed; `l.length` fuel always suffices (`specRootFuel_stable`). -/
def specRootFuel (H : α → α → α) : Nat → List α → Option α
  | _, [x] => some x
  | fuel + 1, x :: y :: rest => specRootFuel H fuel (specLevel H (x :: y :: rest))
  | _, _ => none

/-- Modelled from the spec: the Bitcoin merkle root of a leaf list (`none`
only for an empty list or exhausted fuel, which `specRootFuel_stable` rules
out). -/
def specMerkleRoot (H : α → α → α) (l : List α) : Option α :=
  specRootFuel H l.length l

/-- `ProvedTransaction` from `src/proved.rs`; the opaque transaction is
represented by its identifier hash, which is all `merkle_root` reads. -/
structure ProvedTransaction (α β : Type) where
  transaction : α
  merkle_path : List (Bool × α)
  block_hash : β

/-- `ProvedTransaction::new`: the out-of-bounds vector access
`block.txdata[txnr]` panics in Rust; the panic is rendered as `none`. -/
def ProvedTransaction.new (H : α → α → α) (txids : List α) (header_hash : β)
    (txnr : Nat) : Option (ProvedTransaction α β) :=
  if h : txnr < txids.length then
    some ⟨txids.get ⟨txnr, h⟩, compute_proof H txnr txids, header_hash⟩
  else none

/-- A concrete stand-in combiner used to instantiate the abstract double-hash
in closed evaluations. -/
def natH (a b : Nat) : Nat := 2 * a + 3 * b + 1

/-! ## Structure of one level -/

variable (H : α → α → α)

/-- One pairing level halves the hash count, rounding up. -/
theorem specLevel_length : ∀ l : List α, (specLevel H l).length = (l.length + 1) / 2
  | [] => by simp [specLevel]
  | [_] => by simp [specLevel]
  | _ :: _ :: rest => by
    simp only [specLevel, List.length_cons, specLevel_length rest]
    omega

/-- The level reduced by the `binhash` loop body is the standard pairing
level, for any tracked index and starting chunk index. -/
theorem binhashGo_fst : ∀ (l : List α) (track i : Nat),
    (binhashGo H track l i).1 = specLevel H l
  | [], _, _ => rfl
  | [_], _, _ => rfl
  | x :: y :: rest, track, i => by
    simp only [binhashGo, specLevel, List.cons.injEq, true_and]
    exact binhashGo_fst rest track (i + 1)

/-- A tracked index at the even slot of a full pair records the right
hash of the pair with flag `false`. -/
theorem binhashGo_snd_pair_left : ∀ (l : List α) (i r : Nat), r % 2 = 0 →
    ∀ (h : r + 1 < l.length),
    (binhashGo H (i * 2 + r) l i).2 = some (i + r / 2, false, l[r + 1])
  | [], _, _, _, h => by simp at h
  | [_], _, _, _, h => by
    simp only [List.length_singleton] at h
    omega
  | x :: y :: rest, i, r, hr, h => by
    rcases r with _ | _ | r
    · simp [binhashGo]
    · omega
    · have hlt : r + 1 < rest.length := by
        simp only [List.length_cons] at h
        omega
      have hrec := binhashGo_snd_pair_left rest (i + 1) r (by omega) hlt
      rw [show i * 2 + (r + 1 + 1) = (i + 1) * 2 + r from by omega]
      simp only [binhashGo]
      rw [if_neg (by omega), if_neg (by omega), hrec]
      simp only [List.getElem_cons_succ, Option.some.injEq, Prod.mk.injEq,
        true_and, and_true]
      omega

/-- A tracked index at the odd slot of a full pair records the left
hash of the pair with flag `true`. -/
theorem binhashGo_snd_pair_right : ∀ (l : List α) (i r : Nat), r % 2 = 1 →
    ∀ (h : r < l.length),
    (binhashGo H (i * 2 + r) l i).2 = some (i + r / 2, true, l[r - 1])
  | [], _, _, _, h => by simp at h
  | [_], _, r, hr, h => by
    simp only [List.length_singleton] at h
    omega
  | x :: y :: rest, i, r, hr, h => by
    rcases r with _ | _ | r
    · omega
    · simp [binhashGo]
    · obtain ⟨m, rfl⟩ : ∃ m, r = m + 1 := ⟨r - 1, by omega⟩
      have hlt : m + 1 < rest.length := by
        simp only [List.length_cons] at h
        omega
      have hrec := binhashGo_snd_pair_right rest (i + 1) (m + 1) (by omega) hlt
      rw [show i * 2 + (m + 1 + 1 + 1) = (i + 1) * 2 + (m + 1) from by omega]
      simp only [binhashGo]
      rw [if_neg (by omega), if_neg (by omega), hrec]
      simp only [show m + 1 + 1 + 1 - 1 = m + 1 + 1 from by omega,
        Nat.add_sub_cancel, List.getElem_cons_succ, Option.some.injEq,
        Prod.mk.injEq, true_and, and_true]
      omega

/-- A tracked index at a lone (duplicated) final element records that very
hash with flag `false` (the tracked hash sits in the left slot of the pair). -/
theorem binhashGo_snd_lone : ∀ (l : List α) (i r : Nat), r % 2 = 0 →
    ∀ (h : r + 1 = l.length),
    (binhashGo H (i * 2 + r) l i).2 = some (i + r / 2, false, l[r])
  | [], _, _, _, h => by simp at h
  | [x], i, r, hr, h => by
    rcases r with _ | r
    · simp [binhashGo]
    · simp at h
  | x :: y :: rest, i, r, hr, h => by
    rcases r with _ | _ | r
    · simp at h
    · omega
    · have hl : r + 1 = rest.length := by
        simp only [List.length_cons] at h
        omega
      have hrec := binhashGo_snd_lone rest (i + 1) r (by omega) hl
      rw [show i * 2 + (r + 1 + 1) = (i + 1) * 2 + r from by omega]
      simp only [binhashGo]
      rw [if_neg (by omega), if_neg (by omega), hrec]
      simp only [List.getElem_cons_succ, Option.some.injEq, Prod.mk.injEq,
        true_and, and_true]
      omega

/-- A tracked index one past the end of an odd-length level is accepted as
the odd slot of the duplicated final element: the final hash is recorded
with flag `true`. -/
theorem binhashGo_snd_past : ∀ (l : List α) (i : Nat), ∀ (h : l.length % 2 = 1),
    (binhashGo H (i * 2 + l.length) l i).2 =
      some (i + l.length / 2, true, l[l.length - 1])
  | [], _, h => by simp at h
  | [x], i, h => by simp [binhashGo]
  | x :: y :: z :: rest, i, h => by
    have hodd : (z :: rest).length % 2 = 1 := by
      simp only [List.length_cons] at h ⊢
      omega
    have hrec := binhashGo_snd_past (z :: rest) (i + 1) hodd
    simp only [List.length_cons] at hrec ⊢
    rw [show i * 2 + (rest.length + 1 + 1 + 1) = (i + 1) * 2 + (rest.length + 1) from by
      omega]
    simp only [binhashGo]
    rw [if_neg (by omega), if_neg (by omega), hrec]
    simp only [Nat.add_sub_cancel, List.getElem_cons_succ, Option.some.injEq,
      Prod.mk.injEq, true_and, and_true,
      show rest.length + 1 + 1 + 1 - 1 = rest.length + 1 + 1 from by omega]
    omega
  | [x, y], i, h => by simp at h

/-! ## The `binhash` wrapper -/

/-- On a level of at most one hash, `binhash` reduces to nothing and reports
no tracked operation: this is what ends the `compute_proof` loop. -/
theorem binhash_short (l : List α) (track : Nat) (h : l.length ≤ 1) :
    binhash H l track = ([], none) := by
  rw [binhash, if_neg (by omega)]

/-- On a level of two or more hashes, the reduced level is the standard
pairing level. -/
theorem binhash_fst (l : List α) (track : Nat) (h : 1 < l.length) :
    (binhash H l track).1 = specLevel H l := by
  rw [binhash, if_pos h]
  exact binhashGo_fst H l track 0

/-- If `binhash` reports a tracked operation then the level had at least two
hashes and the reduced level is the standard pairing level. -/
theorem binhash_of_some {l next : List α} {track : Nat} {op : Nat × Bool × α}
    (hb : binhash H l track = (next, some op)) :
    1 < l.length ∧ next = specLevel H l := by
  by_cases hl : 1 < l.length
  · refine ⟨hl, ?_⟩
    have hfst := binhash_fst H l track hl
    rw [hb] at hfst
    exact hfst
  · rw [binhash_short H l track (by omega)] at hb
    simp at hb

/-- Tracked operation at an even in-pair position: flag `false`, sibling is
the next hash. -/
theorem binhash_snd_pair_left (l : List α) (track : Nat) (hr : track % 2 = 0)
    (h : track + 1 < l.length) :
    (binhash H l track).2 = some (track / 2, false, l[track + 1]) := by
  rw [binhash, if_pos (by omega)]
  have := binhashGo_snd_pair_left H l 0 track hr h
  simpa using this

/-- Tracked operation at an odd in-pair position: flag `true`, sibling is
the previous hash. -/
theorem binhash_snd_pair_right (l : List α) (track : Nat) (hr : track % 2 = 1)
    (h : track < l.length) :
    (binhash H l track).2 = some (track / 2, true, l[track - 1]) := by
  rw [binhash, if_pos (by omega)]
  have := binhashGo_snd_pair_right H l 0 track hr h
  simpa using this

/-- Tracked operation at a lone duplicated final element: flag `false`,
sibling is the tracked hash itself. -/
theorem binhash_snd_lone (l : List α) (track : Nat) (hr : track % 2 = 0)
    (h : track + 1 = l.length) (h2 : 1 < l.length) :
    (binhash H l track).2 = some (track / 2, false, l[track]) := by
  rw [binhash, if_pos h2]
  have := binhashGo_snd_lone H l 0 track hr h
  simpa using this

/-- Tracked index one past the end of an odd-length level: silently accepted
as the odd slot of the duplicated final element. -/
theorem binhash_snd_past (l : List α) (h : l.length % 2 = 1) (h2 : 1 < l.length) :
    (binhash H l l.length).2 = some (l.length / 2, true, l[l.length - 1]) := by
  rw [binhash, if_pos h2]
  have := binhashGo_snd_past H l 0 h
  simpa using this

/-! ## Reading one parent hash out of a level -/

/-- Parent `k` of a level pairs positions `2k` and `2k + 1`, duplicating
position `2k` when `2k + 1` falls off the end. -/
theorem specLevel_getElem? : ∀ (l : List α) (k : Nat),
    (specLevel H l)[k]? =
      match l[2 * k]?, l[2 * k + 1]? with
      | some a, some b => some (H a b)
      | some a, none => some (H a a)
      | none, _ => none
  | [], k => by simp [specLevel]
  | [x], k => by
    rcases k with _ | k
    · simp [specLevel]
    · simp [specLevel, show 2 * (k + 1) = 2 * k + 1 + 1 from by omega]
  | x :: y :: rest, k => by
    rcases k with _ | k
    · simp [specLevel]
    · have hrec := specLevel_getElem? rest k
      simp only [specLevel, List.getElem?_cons_succ, hrec,
        show 2 * (k + 1) = 2 * k + 1 + 1 from by omega]

/-- A full pair inside the level: parent `k` hashes the hash at `2k` with
the hash at `2k + 1`. -/
theorem specLevel_get?_pair (l : List α) (k : Nat) (h : 2 * k + 1 < l.length) :
    (specLevel H l)[k]? = some (H (l.get ⟨2 * k, by omega⟩) (l.get ⟨2 * k + 1, h⟩)) := by
  rw [specLevel_getElem? H l k, List.getElem?_eq_getElem (show 2 * k < l.length by omega),
    List.getElem?_eq_getElem h]
  simp [List.get_eq_getElem]

/-- A lone final element of the level: parent `k` hashes the hash at `2k`
with itself. -/
theorem specLevel_get?_lone (l : List α) (k : Nat) (h : 2 * k + 1 = l.length) :
    (specLevel H l)[k]? = some (H (l.get ⟨2 * k, by omega⟩) (l.get ⟨2 * k, by omega⟩)) := by
  rw [specLevel_getElem? H l k, List.getElem?_eq_getElem (show 2 * k < l.length by omega),
    List.getElem?_eq_none (show l.length ≤ 2 * k + 1 by omega)]
  simp [List.get_eq_getElem]

/-- Extract a `List.get` fact from an optional-indexing fact. -/
theorem get_of_getElem? {l : List α} {k : Nat} {a : α} (hk : k < l.length)
    (h : l[k]? = some a) : l.get ⟨k, hk⟩ = a := by
  rw [List.getElem?_eq_getElem hk] at h
  rw [List.get_eq_getElem]
  exact Option.some.inj h

/-! ## Fuel stabilization: the source loops always exit within `length` steps -/

/-- Extra fuel beyond the level count changes nothing in `specRootFuel`. -/
theorem specRootFuel_succ : ∀ (fuel : Nat) (l : List α), l.length ≤ fuel →
    specRootFuel H (fuel + 1) l = specRootFuel H fuel l
  | 0, l, h => by
    have : l = [] := List.length_eq_zero.mp (by omega)
    subst this
    simp [specRootFuel]
  | fuel + 1, [], _ => by simp [specRootFuel]
  | fuel + 1, [x], _ => by simp [specRootFuel]
  | fuel + 1, x :: y :: rest, h => by
    have hlen : (specLevel H (x :: y :: rest)).length ≤ fuel := by
      rw [specLevel_length]
      simp only [List.length_cons] at h ⊢
      omega
    calc specRootFuel H (fuel + 1 + 1) (x :: y :: rest)
        = specRootFuel H (fuel + 1) (specLevel H (x :: y :: rest)) := by
          simp [specRootFuel]
      _ = specRootFuel H fuel (specLevel H (x :: y :: rest)) :=
          specRootFuel_succ fuel (specLevel H (x :: y :: rest)) hlen
      _ = specRootFuel H (fuel + 1) (x :: y :: rest) := by
          simp [specRootFuel]

/-- Any fuel of at least the level count computes `specMerkleRoot`. -/
theorem specRootFuel_stable : ∀ (fuel : Nat) (l : List α), l.length ≤ fuel →
    specRootFuel H fuel l = specMerkleRoot H l
  | 0, l, h => by
    have : l = [] := List.length_eq_zero.mp (by omega)
    subst this
    rfl
  | fuel + 1, l, h => by
    by_cases he : l.length = fuel + 1
    · rw [specMerkleRoot, he]
    · rw [specRootFuel_succ H fuel l (by omega)]
      exact specRootFuel_stable fuel l (by omega)

/-- Reducing a level of at least two hashes leaves the merkle root
unchanged: `specMerkleRoot` factors through `specLevel`. -/
theorem specMerkleRoot_level (l : List α) (h2 : 2 ≤ l.length) :
    specMerkleRoot H l = specMerkleRoot H (specLevel H l) := by
  rcases l with _ | ⟨x, _ | ⟨y, rest⟩⟩
  · simp at h2
  · simp at h2
  · have hlen : (specLevel H (x :: y :: rest)).length ≤ rest.length + 1 := by
      rw [specLevel_length]
      simp only [List.length_cons]
      omega
    calc specMerkleRoot H (x :: y :: rest)
        = specRootFuel H (rest.length + 1 + 1) (x :: y :: rest) := by
          rw [specMerkleRoot]
          simp
      _ = specRootFuel H (rest.length + 1) (specLevel H (x :: y :: rest)) := by
          simp [specRootFuel]
      _ = specMerkleRoot H (specLevel H (x :: y :: rest)) :=
          specRootFuel_stable H (rest.length + 1) _ hlen

/-- One unfolding of the fuelled loop when `binhash` reports an
operation. -/
theorem computeProofFuel_cons (fuel : Nat) {ids next : List α} {track t : Nat}
    {b : Bool} {s : α} (hb : binhash H ids track = (next, some (t, b, s))) :
    computeProofFuel H (fuel + 1) ids track = (b, s) :: computeProofFuel H fuel next t := by
  simp only [computeProofFuel, hb]

/-- Extra fuel beyond the level count changes nothing in
`computeProofFuel`. -/
theorem computeProofFuel_succ : ∀ (fuel : Nat) (ids : List α) (track : Nat),
    ids.length ≤ fuel →
    computeProofFuel H (fuel + 1) ids track = computeProofFuel H fuel ids track
  | 0, ids, track, h => by
    have : ids = [] := List.length_eq_zero.mp (by omega)
    subst this
    simp [computeProofFuel, binhash_short H [] track (by simp)]
  | fuel + 1, ids, track, h => by
    rcases hb : binhash H ids track with ⟨next, op⟩
    rcases op with _ | ⟨t, left, s⟩
    · simp [computeProofFuel, hb]
    · obtain ⟨h1, hnext⟩ := binhash_of_some H hb
      have hlen : next.length ≤ fuel := by
        rw [hnext, specLevel_length]
        omega
      rw [computeProofFuel_cons H (fuel + 1) hb, computeProofFuel_cons H fuel hb,
        computeProofFuel_succ fuel next t hlen]

/-- Any fuel of at least the leaf count computes `compute_proof`: the
source loop always exits within `ids.length` iterations. -/
theorem computeProofFuel_stable : ∀ (fuel : Nat) (ids : List α) (track : Nat),
    ids.length ≤ fuel →
    computeProofFuel H fuel ids track = compute_proof H track ids
  | 0, ids, track, h => by
    have : ids = [] := List.length_eq_zero.mp (by omega)
    subst this
    rfl
  | fuel + 1, ids, track, h => by
    by_cases he : ids.length = fuel + 1
    · rw [compute_proof, he]
    · rw [computeProofFuel_succ H fuel ids track (by omega)]
      exact computeProofFuel_stable fuel ids track (by omega)

/-- One level of the source loop: a reported operation is consed onto the
proof built for the reduced level at the parent index. -/
theorem compute_proof_cons {l next : List α} {track t : Nat} {b : Bool} {s : α}
    (hb : binhash H l track = (next, some (t, b, s))) :
    compute_proof H track l = (b, s) :: compute_proof H t next := by
  obtain ⟨h1, hnext⟩ := binhash_of_some H hb
  have hlen : next.length ≤ l.length - 1 := by
    rw [hnext, specLevel_length]
    omega
  rw [compute_proof, show l.length = (l.length - 1) + 1 from by omega,
    computeProofFuel_cons H (l.length - 1) hb,
    computeProofFuel_stable H (l.length - 1) next t hlen]

/-! ## The tracked step agrees with the level -/

/-- Unfolding of the path fold over one recorded operation. -/
theorem merkle_root_cons (a : α) (b : Bool) (s : α) (p : List (Bool × α)) :
    merkle_root H a ((b, s) :: p) = merkle_root H (if b then H s a else H a s) p := rfl

/-- For an in-range tracked index on a level of at least two hashes,
`binhash` reports an operation at parent index `track / 2`, and applying
that operation to the tracked hash yields exactly the parent hash the
reduced level holds at `track / 2`. -/
theorem binhash_step (l : List α) (track : Nat) (h2 : 2 ≤ l.length)
    (ht : track < l.length) :
    ∃ b s, binhash H l track = (specLevel H l, some (track / 2, b, s)) ∧
      (specLevel H l)[track / 2]? =
        some (if b then H s (l.get ⟨track, ht⟩) else H (l.get ⟨track, ht⟩) s) := by
  have hfst := binhash_fst H l track (by omega)
  have hpair : binhash H l track = ((binhash H l track).1, (binhash H l track).2) := rfl
  by_cases hpar : track % 2 = 1
  · refine ⟨true, l.get ⟨track - 1, by omega⟩, ?_, ?_⟩
    · have hsnd := binhash_snd_pair_right H l track hpar ht
      rw [hpair, hfst, hsnd]
      simp [List.get_eq_getElem]
    · have e1 : 2 * (track / 2) = track - 1 := by omega
      have e3 : track - 1 + 1 = track := by omega
      rw [specLevel_get?_pair H l (track / 2) (by omega)]
      simp only [List.get_eq_getElem, e1, e3, if_true]
  · by_cases hlt : track + 1 < l.length
    · refine ⟨false, l.get ⟨track + 1, hlt⟩, ?_, ?_⟩
      · have hsnd := binhash_snd_pair_left H l track (by omega) hlt
        rw [hpair, hfst, hsnd]
        simp [List.get_eq_getElem]
      · have e1 : 2 * (track / 2) = track := by omega
        have e2 : 2 * (track / 2) + 1 = track + 1 := by omega
        rw [specLevel_get?_pair H l (track / 2) (by omega)]
        simp only [List.get_eq_getElem, e1, e2]
        simp
    · refine ⟨false, l.get ⟨track, ht⟩, ?_, ?_⟩
      · have hsnd := binhash_snd_lone H l track (by omega) (by omega) (by omega)
        rw [hpair, hfst, hsnd]
        simp [List.get_eq_getElem]
      · have e1 : 2 * (track / 2) = track := by omega
        rw [specLevel_get?_lone H l (track / 2) (by omega)]
        simp only [List.get_eq_getElem, e1]
        simp

/-! ## Round trip and path length -/

/-- Round trip, by strong induction on the leaf count: folding the path
built for any in-range tracked index, starting from the tracked hash,
yields the standard merkle root. -/
theorem roundtrip : ∀ (n : Nat) (l : List α) (track : Nat), l.length = n →
    ∀ (ht : track < l.length),
    specMerkleRoot H l =
      some (merkle_root H (l.get ⟨track, ht⟩) (compute_proof H track l)) := by
  intro n
  induction n using Nat.strong_induction_on with
  | _ n IH =>
    intro l track hl ht
    by_cases h1 : l.length ≤ 1
    · have hlen1 : l.length = 1 := by omega
      obtain ⟨x, rfl⟩ := List.length_eq_one.mp hlen1
      have : track = 0 := by
        simp only [List.length_singleton] at ht
        omega
      subst this
      rfl
    · have h2 : 2 ≤ l.length := by omega
      obtain ⟨b, s, hbb, hlv⟩ := binhash_step H l track h2 ht
      rw [compute_proof_cons H hbb, merkle_root_cons, specMerkleRoot_level H l h2]
      have hk : track / 2 < (specLevel H l).length := by
        rw [specLevel_length]
        omega
      rw [← get_of_getElem? hk hlv]
      exact IH ((l.length + 1) / 2) (by omega) (specLevel H l) (track / 2)
        (specLevel_length H l) hk

/-- Path length, by strong induction on the leaf count: the path for any
in-range tracked index has one entry per halving level. -/
theorem path_length : ∀ (n : Nat) (l : List α) (track : Nat), l.length = n →
    track < l.length → (compute_proof H track l).length = Nat.clog 2 l.length := by
  intro n
  induction n using Nat.strong_induction_on with
  | _ n IH =>
    intro l track hl ht
    by_cases h1 : l.length ≤ 1
    · have hlen1 : l.length = 1 := by omega
      obtain ⟨x, rfl⟩ := List.length_eq_one.mp hlen1
      simp [compute_proof, computeProofFuel, binhash]
    · have h2 : 2 ≤ l.length := by omega
      obtain ⟨b, s, hbb, hlv⟩ := binhash_step H l track h2 ht
      have hk : track / 2 < (specLevel H l).length := by
        rw [specLevel_length]
        omega
      rw [compute_proof_cons H hbb]
      simp only [List.length_cons]
      rw [IH ((l.length + 1) / 2) (by omega) (specLevel H l) (track / 2)
        (specLevel_length H l) hk]
      rw [specLevel_length, Nat.clog_of_two_le (by omega) h2,
        show l.length + 2 - 1 = l.length + 1 from by omega]

end SpvProof

namespace SpvProof

/-! ## The claims -/

/-- C1: for every non-empty list of leaf identifier hashes and every index
`i` in range, folding the path returned by `compute_proof i ids` with the
`merkle_root` rule — starting from `ids[i]`, hashing sibling first when its
flag is `true` and sibling second otherwise — yields exactly the Bitcoin
merkle root of `ids` computed level by level with odd-element
duplication. -/
theorem c1_round_trip {α : Type} (H : α → α → α) (ids : List α) (i : Nat)
    (hi : i < ids.length) :
    specMerkleRoot H ids =
      some (merkle_root H (ids.get ⟨i, hi⟩) (compute_proof H i ids)) :=
  roundtrip H ids.length ids i rfl hi

/-- Witness for C1 at `ids = [5, 6, 7]`, `i = 1`. -/
theorem c1_round_trip_witness :
    (1 : Nat) < ([5, 6, 7] : List Nat).length ∧
      specMerkleRoot natH [5, 6, 7] =
        some (merkle_root natH 6 (compute_proof natH 1 [5, 6, 7])) :=
  ⟨by decide, c1_round_trip natH [5, 6, 7] 1 (by decide)⟩

/-- C2: contrary to the claim (and to the doc comment in the source, which
promises a panic when the transaction is not in the block),
`compute_proof` with `track ≥ n` returns normally: on three leaves with
`track = 3` it silently returns a usable two-entry path that folds to the
true merkle root when started from the last leaf, and on two leaves with
`track = 2` it silently returns the empty path. -/
theorem c2_out_of_range_returns_normally {α : Type} (H : α → α → α) (a b c : α) :
    compute_proof H 3 [a, b, c] = [(true, c), (true, H a b)]
      ∧ specMerkleRoot H [a, b, c] =
        some (merkle_root H c (compute_proof H 3 [a, b, c]))
      ∧ compute_proof H 2 [a, b] = [] :=
  ⟨rfl, rfl, rfl⟩

/-- C3: contrary to the claim, `compute_proof` on an empty leaf list does
not fail loudly: it returns the empty path normally, for every tracked
index. The only loud failure is the vector-index panic in
`ProvedTransaction::new` (modelled as `none`), which never reaches
`compute_proof`. -/
theorem c3_empty_returns_normally {α β : Type} (H : α → α → α) (track : Nat)
    (header_hash : β) :
    compute_proof H track ([] : List α) = []
      ∧ ProvedTransaction.new H ([] : List α) header_hash track = none :=
  ⟨rfl, by simp [ProvedTransaction.new]⟩

/-- C4: for every list of leaf hashes of length `n ≥ 1` and every in-range
tracked index, the returned path has length exactly `⌈log2 n⌉`, which is
`0` when `n = 1`. -/
theorem c4_path_length {α : Type} (H : α → α → α) (ids : List α) (track : Nat)
    (h1 : 1 ≤ ids.length) (ht : track < ids.length) :
    (compute_proof H track ids).length = Nat.clog 2 ids.length :=
  path_length H ids.length ids track rfl ht

/-- Witness for C4 at five leaves, `track = 2`: length `⌈log2 5⌉ = 3`. -/
theorem c4_path_length_witness :
    (1 : Nat) ≤ ([3, 1, 4, 1, 5] : List Nat).length ∧
      (2 : Nat) < ([3, 1, 4, 1, 5] : List Nat).length ∧
      (compute_proof natH 2 [3, 1, 4, 1, 5]).length = Nat.clog 2 5 :=
  ⟨by decide, by decide, c4_path_length natH [3, 1, 4, 1, 5] 2 (by decide) (by decide)⟩

/-- C5: `merkle_root` is total — it is a plain fold that starts from the
identifier hash of the transaction, returns it unchanged on the empty path, and
on each entry replaces the accumulator with `H sibling acc` when the flag
is `true` and `H acc sibling` otherwise, raising no error for any path. -/
theorem c5_merkle_root_total {α : Type} (H : α → α → α) (t s : α) (b : Bool)
    (p : List (Bool × α)) :
    merkle_root H t [] = t
      ∧ merkle_root H t ((b, s) :: p) =
        merkle_root H (if b then H s t else H t s) p :=
  ⟨rfl, rfl⟩

/-- C6: at every level, a tracked position at the left (even) slot of its
pair records `(false, right hash)` — the duplicated lone element counting
as its own right hash — and a tracked position at the right (odd) slot
records `(true, left hash)`. -/
theorem c6_sibling_side {α : Type} (H : α → α → α) (l : List α) (track : Nat)
    (h2 : 2 ≤ l.length) (ht : track < l.length) :
    (binhash H l track).2 =
      if track % 2 = 1 then some (track / 2, true, l.get ⟨track - 1, by omega⟩)
      else if h : track + 1 < l.length then
        some (track / 2, false, l.get ⟨track + 1, h⟩)
      else some (track / 2, false, l.get ⟨track, ht⟩) := by
  by_cases hpar : track % 2 = 1
  · rw [if_pos hpar, binhash_snd_pair_right H l track hpar ht]
    simp [List.get_eq_getElem]
  · rw [if_neg hpar]
    by_cases hlt : track + 1 < l.length
    · rw [dif_pos hlt, binhash_snd_pair_left H l track (by omega) hlt]
      simp [List.get_eq_getElem]
    · rw [dif_neg hlt, binhash_snd_lone H l track (by omega) (by omega) (by omega)]
      simp [List.get_eq_getElem]

/-- Witness for C6 at four leaves, `track = 1` (odd slot): the recorded
entry is `(true, left hash)`. -/
theorem c6_sibling_side_witness :
    (2 : Nat) ≤ ([9, 8, 7, 6] : List Nat).length ∧
      (1 : Nat) < ([9, 8, 7, 6] : List Nat).length ∧
      (binhash natH [9, 8, 7, 6] 1).2 = some (0, true, 9) :=
  ⟨by decide, by decide,
    (c6_sibling_side natH [9, 8, 7, 6] 1 (by decide) (by decide)).trans (by decide)⟩

/-- C7: on an odd-length level the final hash is paired with itself — the
reduced level ends in `H x x` for `x` the last hash — and when the tracked
leaf is that lone element the recorded sibling is the tracked hash itself;
the proof built at that index still folds back to the true merkle root. -/
theorem c7_odd_duplication {α : Type} (H : α → α → α) (l : List α)
    (hodd : l.length % 2 = 1) (h2 : 2 ≤ l.length) :
    ((binhash H l (l.length - 1)).1.getLast? =
        some (H (l.get ⟨l.length - 1, by omega⟩) (l.get ⟨l.length - 1, by omega⟩))
      ∧ (binhash H l (l.length - 1)).2 =
        some ((l.length - 1) / 2, false, l.get ⟨l.length - 1, by omega⟩))
      ∧ specMerkleRoot H l =
        some (merkle_root H (l.get ⟨l.length - 1, by omega⟩)
          (compute_proof H (l.length - 1) l)) := by
  refine ⟨⟨?_, ?_⟩, roundtrip H l.length l (l.length - 1) rfl (by omega)⟩
  · rw [binhash_fst H l (l.length - 1) (by omega),
      List.getLast?_eq_getElem? (specLevel H l),
      specLevel_get?_lone H l ((specLevel H l).length - 1)
        (by rw [specLevel_length]; omega)]
    have e : 2 * ((specLevel H l).length - 1) = l.length - 1 := by
      rw [specLevel_length]
      omega
    simp only [List.get_eq_getElem, e]
  · rw [binhash_snd_lone H l (l.length - 1) (by omega) (by omega) (by omega)]
    simp [List.get_eq_getElem]

/-- Witness for C7 at `ids = [1, 2, 3]`, tracked lone element `track = 2`. -/
theorem c7_odd_duplication_witness :
    ([1, 2, 3] : List Nat).length % 2 = 1 ∧ (2 : Nat) ≤ ([1, 2, 3] : List Nat).length ∧
      (((binhash natH [1, 2, 3] 2).1.getLast? = some (natH 3 3)
        ∧ (binhash natH [1, 2, 3] 2).2 = some (1, false, 3))
        ∧ specMerkleRoot natH [1, 2, 3] =
          some (merkle_root natH 3 (compute_proof natH 2 [1, 2, 3]))) :=
  ⟨by decide, by decide, c7_odd_duplication natH [1, 2, 3] (by decide) (by decide)⟩

/-- C8: `compute_proof` is deterministic — a pure function of
`(ids, track)`: two calls on equal inputs return equal paths, with the same
flags, hashes and order, and no dependence on hidden state. -/
theorem c8_deterministic {α : Type} (H : α → α → α) (ids1 ids2 : List α)
    (t1 t2 : Nat) (hids : ids1 = ids2) (ht : t1 = t2) :
    compute_proof H t1 ids1 = compute_proof H t2 ids2 := by
  subst hids
  subst ht
  rfl

/-- Witness for C8 at `ids = [4, 2]`, `track = 1`. -/
theorem c8_deterministic_witness :
    ([4, 2] : List Nat) = [4, 2] ∧ (1 : Nat) = 1 ∧
      compute_proof natH 1 [4, 2] = compute_proof natH 1 [4, 2] :=
  ⟨rfl, rfl, c8_deterministic natH [4, 2] [4, 2] 1 1 rfl rfl⟩

/-- C9: for every odd-length list of at least three leaves, calling
`compute_proof` with the out-of-range index `track = n` silently returns a
non-empty path whose first entry is `(true, ids[n - 1])`: one past the end
is treated as the right-hand slot of the final self-paired element instead
of being rejected. -/
theorem c9_track_past_end {α : Type} (H : α → α → α) (l : List α) (n : Nat)
    (hn : l.length = n) (hodd : n % 2 = 1) (h3 : 3 ≤ n) :
    ∃ x rest, l.getLast? = some x ∧ compute_proof H n l = (true, x) :: rest := by
  subst hn
  have h2 : 1 < l.length := by omega
  have hbb : binhash H l l.length =
      (specLevel H l, some (l.length / 2, true, l.get ⟨l.length - 1, by omega⟩)) := by
    have hpair : binhash H l l.length =
        ((binhash H l l.length).1, (binhash H l l.length).2) := rfl
    rw [hpair, binhash_fst H l l.length h2, binhash_snd_past H l hodd h2]
    simp [List.get_eq_getElem]
  refine ⟨l.get ⟨l.length - 1, by omega⟩,
    compute_proof H (l.length / 2) (specLevel H l), ?_, ?_⟩
  · rw [List.getLast?_eq_getElem? l, List.getElem?_eq_getElem (show l.length - 1 < l.length by omega)]
    simp [List.get_eq_getElem]
  · exact compute_proof_cons H hbb

/-- Witness for C9 at `ids = [1, 2, 3]`, `track = 3`. -/
theorem c9_track_past_end_witness :
    ([1, 2, 3] : List Nat).length = 3 ∧ (3 : Nat) % 2 = 1 ∧ (3 : Nat) ≤ 3 ∧
      ∃ x rest, ([1, 2, 3] : List Nat).getLast? = some x ∧
        compute_proof natH 3 [1, 2, 3] = (true, x) :: rest :=
  ⟨rfl, rfl, by decide, c9_track_past_end natH [1, 2, 3] 3 rfl (by decide) (by decide)⟩

/-- C10: `compute_proof` terminates on every input — one `binhash` step
maps a level of `len ≥ 2` hashes to a strictly shorter level of
`⌈len / 2⌉`, a level of at most one hash yields no tracked operation
(ending the loop), and fuel `ids.length` already computes the fixed
point of the loop for every list and every tracked index. -/
theorem c10_terminating {α : Type} (H : α → α → α) (l ids : List α)
    (t track fuel : Nat) :
    (2 ≤ l.length →
        (binhash H l t).1.length = (l.length + 1) / 2
          ∧ (l.length + 1) / 2 < l.length)
      ∧ (l.length ≤ 1 → binhash H l t = ([], none))
      ∧ (ids.length ≤ fuel →
        computeProofFuel H fuel ids track = compute_proof H track ids) := by
  refine ⟨fun h2 => ⟨?_, by omega⟩, fun h1 => binhash_short H l t h1,
    fun hf => computeProofFuel_stable H fuel ids track hf⟩
  rw [binhash_fst H l t (by omega), specLevel_length]

/-- Witness for C10 at a three-leaf level, a one-leaf level, and a
two-leaf loop with surplus fuel. -/
theorem c10_terminating_witness :
    ((binhash natH [1, 2, 3] 1).1.length = 2 ∧ (2 : Nat) < 3)
      ∧ binhash natH [7] 0 = ([], none)
      ∧ computeProofFuel natH 5 [4, 5] 0 = compute_proof natH 0 [4, 5] :=
  ⟨(c10_terminating natH [1, 2, 3] [4, 5] 1 0 5).1 (by decide),
    (c10_terminating natH [7] [4, 5] 0 0 5).2.1 (by decide),
    (c10_terminating natH [1, 2, 3] [4, 5] 1 0 5).2.2 (by decide)⟩

end SpvProof
